import Mathlib

/-!
Verification of the model-lifecycle ledger, generation pipeline and
concurrency discipline of the LLM inference backend
(`backend/src/main.rs`, `backend/src/infer.rs`).

The service state (`AppState` in `main.rs`) keeps
  * `models   : HashMap<String, Option<Arc<Mutex<LoadedModel>>>>`
  * `model_sizes : HashMap<String, usize>`
  * `active_model : String`
  * `vram_limit : usize`
Maps are embedded as association lists whose list order stands for the
map's iteration order (the handlers iterate `models.iter()`), and the
presence of an instance (`Option<Arc<..>>::is_some`) is a `Bool`.
Handlers are embedded as pure state transformers; the external effects
(file download and size probe, the heavy weight load) enter as explicit
parameters of the `load` operation, one per `spawn_blocking` call in the
source.
-/

namespace LLMService

/-- Association list with `String` keys; the list order models the
iteration order of the corresponding `HashMap`. -/
abbrev AL (β : Type) := List (String × β)

/-- `HashMap::get`: first binding of the key, if any. -/
def lookupA {β : Type} : AL β → String → Option β
  | [], _ => none
  | (k, v) :: rest, n => if k = n then some v else lookupA rest n

/-- `HashMap::insert` / `get_mut` + assignment: replace the value of the
first binding of the key in place (preserving iteration order), append a
fresh binding if the key is absent. -/
def setA {β : Type} : AL β → String → β → AL β
  | [], n, v => [(n, v)]
  | (k, w) :: rest, n, v =>
      if k = n then (k, v) :: rest else (k, w) :: setA rest n v

/-- Keys of an association list, in iteration order. -/
def keysOf {β : Type} (l : AL β) : List String := l.map Prod.fst

/-- `lookupA sz k` with the `unwrap_or(&0)` default the handlers use. -/
def sizeD (sz : AL Nat) (k : String) : Nat := (lookupA sz k).getD 0

/-- The VRAM usage sum of `load_model_handler` / `list_models`:
iterate the models map and add `sizes.get(name).unwrap_or(&0)` for every
entry whose instance is present. -/
def usage : AL Bool → AL Nat → Nat
  | [], _ => 0
  | (k, present) :: rest, sz =>
      (if present then sizeD sz k else 0) + usage rest sz

/-- The names of the currently loaded models, in map iteration order. -/
def presentNames : AL Bool → List String
  | [] => []
  | (k, present) :: rest =>
      if present then k :: presentNames rest else presentNames rest

/-- The victim scan of `load_model_handler`: the first entry of the
models map (in iteration order) whose instance is present. -/
def firstVictim (ms : AL Bool) : Option String := (presentNames ms).head?

/-- Outcome of the auto-unload (`while current_usage_mb + required_mb >
state.vram_limit`) loop. -/
structure EvictResult where
  models : AL Bool
  current : Nat
  victims : List String
  fits : Bool
  deriving Repr, DecidableEq

/-- The eviction loop of `load_model_handler`: while the requested model
does not fit, pick the first loaded entry of the map, set its slot to
`None` and subtract its recorded size from the running usage; if no
loaded entry remains, fail (CapacityExceeded).  Evictions performed
before a failure are kept, exactly as in the handler.  `fuel` only
bounds the recursion; every call site passes `ms.length`, which is never
exhausted because each round unloads one loaded entry. -/
def evictLoop (sz : AL Nat) (limit req : Nat) :
    Nat → AL Bool → Nat → EvictResult
  | fuel, ms, current =>
    if current + req ≤ limit then ⟨ms, current, [], true⟩
    else
      match firstVictim ms with
      | none => ⟨ms, current, [], false⟩
      | some v =>
        match fuel with
        | 0 => ⟨ms, current, [], false⟩
        | fuel' + 1 =>
          let r := evictLoop sz limit req fuel' (setA ms v false)
                     (current - sizeD sz v)
          ⟨r.models, r.current, v :: r.victims, r.fits⟩

/-- The ledger part of `AppState`. -/
structure Ledger where
  models : AL Bool
  sizes : AL Nat
  active : String
  vramLimit : Nat
  deriving Repr, DecidableEq

/-- Result of `load_model_handler`, one constructor per return path.
`panicked` is the `models_guard.get(&req.name).unwrap()` panic. -/
inductive LoadResult where
  | notFound
  | alreadyLoaded
  | fetchFailed
  | capacityExceeded
  | loadFailed
  | ok
  | panicked
  deriving Repr, DecidableEq

/-- `load_model_handler`.  `cfg` is the key list of
`state.settings.models`; `fetch` is the outcome of the
`get_model_file_info` blocking task (`none` = fetch failed, `some req` =
measured size + 500 MB overhead); `loadOk` is whether the
`LoadedModel::load` blocking task succeeds. -/
def loadModel (cfg : List String) (s : Ledger) (name : String)
    (fetch : Option Nat) (loadOk : Bool) : LoadResult × Ledger :=
  if name ∈ cfg then
    match lookupA s.models name with
    | none => (.panicked, s)
    | some true => (.alreadyLoaded, { s with active := name })
    | some false =>
      match fetch with
      | none => (.fetchFailed, s)
      | some req =>
        -- sizes.insert(req.name, required_mb)
        let sizes' := setA s.sizes name req
        -- current_usage_mb = Σ over loaded of sizes
        let cur := usage s.models sizes'
        let r := evictLoop sizes' s.vramLimit req s.models.length s.models cur
        if r.fits then
          if loadOk then
            (.ok, { s with models := setA r.models name true,
                           sizes := sizes', active := name })
          else
            (.loadFailed, { s with models := r.models, sizes := sizes' })
        else
          (.capacityExceeded, { s with models := r.models, sizes := sizes' })
  else (.notFound, s)

/-- `unload_model_handler`: if the slot holds an instance, drop it and
clear the active pointer when it names this model. -/
def unloadModel (s : Ledger) (name : String) : Bool × Ledger :=
  match lookupA s.models name with
  | some true =>
      (true, { s with models := setA s.models name false,
                      active := if s.active = name then "" else s.active })
  | _ => (false, s)

/-- `set_model` handler: set the active pointer when the model is
currently loaded. -/
def setModel (s : Ledger) (name : String) : Bool × Ledger :=
  match lookupA s.models name with
  | some true => (true, { s with active := name })
  | _ => (false, s)

/-- The startup state built in `main`: every configured name maps to an
empty slot and size 0, the active pointer is empty. -/
def initLedger (cfg : List String) (limit : Nat) : Ledger :=
  { models := cfg.map (fun n => (n, false)),
    sizes := cfg.map (fun n => (n, 0)),
    active := "",
    vramLimit := limit }

/-- One administrative operation, with the external outcomes of its
blocking sub-tasks as data. -/
inductive Op where
  | load (name : String) (fetch : Option Nat) (loadOk : Bool)
  | unload (name : String)
  | setActive (name : String)
  deriving Repr, DecidableEq

/-- Apply one operation (dropping the HTTP response). -/
def applyOp (cfg : List String) (s : Ledger) : Op → Ledger
  | .load n f ok => (loadModel cfg s n f ok).2
  | .unload n => (unloadModel s n).2
  | .setActive n => (setModel s n).2

/-- Run a sequence of operations one at a time. -/
def runOps (cfg : List String) (s : Ledger) (ops : List Op) : Ledger :=
  ops.foldl (applyOp cfg) s

/-!
Generation pipeline (`infer.rs::run_inference`).

External collaborators are explicit parameters:
  * `Tok` stands for the `tokenizers::Tokenizer` the instance owns —
    `encode`/`decode` may fail, as in the source (`Result`); text is
    modelled at character granularity (`List Char`);
  * the forward pass + `LogitsProcessor::sample` pair is abstracted as a
    token oracle `next : Nat → Option Nat` giving the token sampled at
    the i-th loop iteration (`none` = engine/sampling failure) — the
    engine is stateful, so along one run the sampled token is a function
    of the iteration index;
  * the callback is abstracted by `emitOk : Nat → Bool`: whether the
    i-th emission succeeds.  For `/infer` the callback appends to a
    string and always succeeds; for `/infer_stream` it is
    `blocking_send`, whose failure makes the callback `panic!`.
-/

/-- Tokenizer interface, as used by `run_inference`. -/
structure Tok where
  encode : List Char → Option (List Nat)
  decode : List Nat → Option (List Char)
  tokenToId : String → Option Nat

/-- `stop_token_ids`: `token_to_id("</s>").unwrap_or(2)`, GPT-2 EOS,
Llama-3 EOT and EOM. -/
def stopTokenIds (tk : Tok) : List Nat :=
  [(tk.tokenToId "</s>").getD 2, 50256, 128001, 128009]

/-- `InferenceParams`.  `temperature`, `top_p` and `seed` only
parameterize the external sampler, which is abstracted into the token
oracle, so the embedding keeps the field that steers the loop. -/
structure InferenceParams where
  maxTokens : Option Nat
  deriving Repr, DecidableEq

/-- The mutable state of the generation loop: the running token
sequence `input_ids`, the `prev_text_len` baseline, the deltas passed
to the callback so far, and the number of loop iterations executed
(tokens sampled). -/
structure LoopState where
  ids : List Nat
  prevLen : Nat
  emitted : List (List Char)
  steps : Nat
  deriving Repr, DecidableEq

/-- How `run_inference` (together with the callback the caller
installed) ends. `panicked` is the `panic!("Client disconnected…")`
path of the streaming callback. -/
inductive RunResult where
  | ok
  | encodeErr
  | decodeErr
  | engineErr
  | panicked
  deriving Repr, DecidableEq

/-- The `for index in 0..max_new_tokens` loop of `run_inference`: sample
a token, append it, re-decode the whole sequence, emit the suffix beyond
`prev_text_len` if non-empty (panicking if the emission fails), then
stop on a stop token.  `fuel` is the number of remaining iterations. -/
def genLoop (decode : List Nat → Option (List Char))
    (next : Nat → Option Nat) (stops : List Nat) (emitOk : Nat → Bool) :
    Nat → Nat → LoopState → RunResult × LoopState
  | 0, _, st => (.ok, st)
  | fuel + 1, index, st =>
    match next index with
    | none => (.engineErr, st)
    | some tok =>
      match decode (st.ids ++ [tok]) with
      | none =>
        (.decodeErr, { st with ids := st.ids ++ [tok], steps := st.steps + 1 })
      | some cur =>
        if st.prevLen < cur.length then
          if emitOk st.emitted.length then
            if tok ∈ stops then
              (.ok, ⟨st.ids ++ [tok], cur.length,
                st.emitted ++ [cur.drop st.prevLen], st.steps + 1⟩)
            else
              genLoop decode next stops emitOk fuel (index + 1)
                ⟨st.ids ++ [tok], cur.length,
                  st.emitted ++ [cur.drop st.prevLen], st.steps + 1⟩
          else
            (.panicked, ⟨st.ids ++ [tok], cur.length,
              st.emitted ++ [cur.drop st.prevLen], st.steps + 1⟩)
        else
          if tok ∈ stops then
            (.ok, ⟨st.ids ++ [tok], st.prevLen, st.emitted, st.steps + 1⟩)
          else
            genLoop decode next stops emitOk fuel (index + 1)
              ⟨st.ids ++ [tok], st.prevLen, st.emitted, st.steps + 1⟩

/-- `run_inference`: encode the prompt, decode it once to set the
`prev_text_len` baseline to the decoded-prompt length, then run the
generation loop for up to `max_tokens` (default 1024) iterations. -/
def runInference (tk : Tok) (next : Nat → Option Nat)
    (emitOk : Nat → Bool) (params : InferenceParams)
    (prompt : List Char) : RunResult × LoopState :=
  match tk.encode prompt with
  | none => (.encodeErr, ⟨[], 0, [], 0⟩)
  | some ids0 =>
    match tk.decode ids0 with
    | none => (.decodeErr, ⟨ids0, 0, [], 0⟩)
    | some initText =>
      genLoop tk.decode next (stopTokenIds tk) emitOk
        (params.maxTokens.getD 1024) 0 ⟨ids0, initText.length, [], 0⟩

/-!
The per-instance lock and the streaming task (`infer_stream_handler`).

The instance lives in an `Arc<StdMutex<LoadedModel>>`.  A `panic!` while
the guard is held poisons the mutex.  The streaming task acquires it
with `lock().unwrap_or_else(|e| e.into_inner())` — a forced recovery
that acquires even a poisoned mutex — while the blocking `/infer`
handler uses `lock().unwrap()`, which panics on a poisoned mutex.
-/

/-- Outcome of a mutex acquisition. -/
inductive AcquireResult where
  | acquired
  | poisonPanic
  deriving Repr, DecidableEq

/-- `model_arc.lock().unwrap()` (the `/infer` handler). -/
def lockPlain (poisoned : Bool) : AcquireResult :=
  if poisoned then .poisonPanic else .acquired

/-- `model_arc.lock().unwrap_or_else(|e| e.into_inner())` (the
`/infer_stream` handler): forced recovery, acquires regardless. -/
def lockForced (_poisoned : Bool) : AcquireResult := .acquired

/-- Observable outcome of the `spawn_blocking` streaming task. -/
structure StreamRun where
  result : RunResult
  state : LoopState
  lockPoisonedAfter : Bool
  deriving Repr, DecidableEq

/-- The streaming blocking task: forcibly acquire the instance lock,
run the inference with the `blocking_send`-backed callback (which
panics when the consumer is gone), and record the lock state on exit —
a panic while holding the guard leaves the mutex poisoned. -/
def streamBlockingTask (tk : Tok) (next : Nat → Option Nat)
    (emitOk : Nat → Bool) (params : InferenceParams) (prompt : List Char)
    (lockPoisonedBefore : Bool) : StreamRun :=
  match lockForced lockPoisonedBefore with
  | .poisonPanic =>
      { result := .panicked, state := ⟨[], 0, [], 0⟩,
        lockPoisonedAfter := lockPoisonedBefore }
  | .acquired =>
      { result := (runInference tk next emitOk params prompt).1,
        state := (runInference tk next emitOk params prompt).2,
        lockPoisonedAfter := lockPoisonedBefore ||
          (runInference tk next emitOk params prompt).1 = RunResult.panicked }

/-!
Admission discipline (`main.rs`): `Semaphore::new(1)`; both `/infer`
and `/infer_stream` acquire one permit before touching the instance and
hold it for the whole generation.  The interleaving of concurrent
request tasks is modelled as a transition system: each task is idle,
waiting on `acquire`, generating (permit held), or done.
-/

/-- Phase of one request task. -/
inductive Phase where
  | idle
  | waiting
  | generating
  | done
  deriving Repr, DecidableEq

/-- Number of tasks currently generating. -/
def generatingCount : List Phase → Nat
  | [] => 0
  | p :: rest => (if p = Phase.generating then 1 else 0) + generatingCount rest

/-- Global scheduler state: free permits of the single admission
semaphore, and the phase of every request task. -/
structure Sys where
  permits : Nat
  tasks : List Phase
  deriving Repr, DecidableEq

/-- Interleaving steps: a task arrives and suspends on
`semaphore.acquire()`; the acquire resumes only when a permit is free,
consuming it; dropping the permit on completion returns it. -/
inductive SysStep : Sys → Sys → Prop
  | submit (s : Sys) (i : Nat) :
      s.tasks.get? i = some .idle →
      SysStep s ⟨s.permits, s.tasks.set i .waiting⟩
  | acquire (s : Sys) (i : Nat) :
      s.tasks.get? i = some .waiting → 0 < s.permits →
      SysStep s ⟨s.permits - 1, s.tasks.set i .generating⟩
  | release (s : Sys) (i : Nat) :
      s.tasks.get? i = some .generating →
      SysStep s ⟨s.permits + 1, s.tasks.set i .done⟩

/-- `Semaphore::new(1)` with `n` pending request tasks. -/
def initSys (n : Nat) : Sys := ⟨1, List.replicate n .idle⟩

/-- Reachability under interleaved scheduling. -/
inductive Reach (init : Sys) : Sys → Prop
  | refl : Reach init init
  | step {s s' : Sys} : Reach init s → SysStep s s' → Reach init s'

/-- Decidable check that two association lists denote the same map:
every binding of each is the first binding of the other. -/
def alEquiv {β : Type} [DecidableEq β] (m1 m2 : AL β) : Bool :=
  m1.all (fun p => decide (lookupA m2 p.1 = some p.2)) &&
  m2.all (fun p => decide (lookupA m1 p.1 = some p.2))

/-- The eviction-victim sequence chosen by a `load_model_handler` call
on ledger `s` for a model of measured size `req`: the victims of the
very eviction loop `loadModel` runs (same arguments). -/
def loadVictims (s : Ledger) (name : String) (req : Nat) : List String :=
  (evictLoop (setA s.sizes name req) s.vramLimit req s.models.length s.models
    (usage s.models (setA s.sizes name req))).victims

/-- The state invariant maintained by the handlers: the key sets of the
models and sizes maps are exactly the configured names, and the loaded
footprints fit in the VRAM limit. -/
structure WF (cfg : List String) (s : Ledger) : Prop where
  mkeys : keysOf s.models = cfg
  skeys : keysOf s.sizes = cfg
  budget : usage s.models s.sizes ≤ s.vramLimit

/-- The integrity property of the ActiveModelPointer: empty, or naming
a model whose instance is present. -/
def activeOK (s : Ledger) : Prop :=
  s.active = "" ∨ lookupA s.models s.active = some true

instance (s : Ledger) : Decidable (activeOK s) := by
  unfold activeOK
  infer_instance

/-- Reference form of the eviction loop: consume the iteration-ordered
list of loaded names, evicting from the front, with footprints given as
a function. -/
def evictSpec (szf : String → Nat) (limit req : Nat) :
    List String → Nat → List String × Bool
  | names, cur =>
    if cur + req ≤ limit then ([], true)
    else
      match names with
      | [] => ([], false)
      | v :: rest =>
        let r := evictSpec szf limit req rest (cur - szf v)
        (v :: r.1, r.2)

/-- The semaphore accounting invariant: free permits plus running
generations always equal the capacity 1 fixed in `main`. -/
def sysInv (s : Sys) : Prop :=
  s.permits + generatingCount s.tasks = 1

/-!  Lemmas about association lists.  -/

theorem lookupA_setA_self {β : Type} (l : AL β) (n : String) (v : β) :
    lookupA (setA l n v) n = some v := by
  induction l with
  | nil => simp [setA, lookupA]
  | cons p rest ih =>
    by_cases h : p.1 = n
    · simp [setA, h, lookupA]
    · simp [setA, h, lookupA, ih]

theorem lookupA_setA_ne {β : Type} (l : AL β) {n k : String} (v : β)
    (h : k ≠ n) : lookupA (setA l n v) k = lookupA l k := by
  have hnk : ¬ (n = k) := fun hh => h hh.symm
  induction l with
  | nil => simp [setA, lookupA, hnk]
  | cons p rest ih =>
    by_cases hp : p.1 = n
    · subst hp
      simp [setA, lookupA, hnk]
    · simp [setA, hp, lookupA, ih]

theorem keysOf_cons {β : Type} (p : String × β) (rest : AL β) :
    keysOf (p :: rest) = p.1 :: keysOf rest := rfl

theorem keysOf_setA_of_mem {β : Type} (l : AL β) (n : String) (v : β) :
    n ∈ keysOf l → keysOf (setA l n v) = keysOf l := by
  induction l with
  | nil => intro h; simp [keysOf] at h
  | cons p rest ih =>
    intro h
    by_cases hp : p.1 = n
    · simp [setA, hp, keysOf]
    · have hr : n ∈ keysOf rest := by
        rw [keysOf_cons] at h
        rcases List.mem_cons.mp h with h | h
        · exact absurd h.symm hp
        · exact h
      simp [setA, hp]
      rw [keysOf_cons, keysOf_cons, ih hr]

theorem lookupA_mem_keys {β : Type} (l : AL β) (n : String) :
    n ∈ keysOf l → ∃ w, lookupA l n = some w := by
  induction l with
  | nil => intro h; simp [keysOf] at h
  | cons p rest ih =>
    intro h
    by_cases hp : p.1 = n
    · exact ⟨p.2, by simp [lookupA, hp]⟩
    · have hr : n ∈ keysOf rest := by
        rw [keysOf_cons] at h
        rcases List.mem_cons.mp h with h | h
        · exact absurd h.symm hp
        · exact h
      rcases ih hr with ⟨w, hw⟩
      exact ⟨w, by simp [lookupA, hp, hw]⟩

theorem keys_of_lookupA_some {β : Type} (l : AL β) (n : String) (v : β) :
    lookupA l n = some v → n ∈ keysOf l := by
  induction l with
  | nil => intro h; simp [lookupA] at h
  | cons p rest ih =>
    intro h
    by_cases hp : p.1 = n
    · rw [keysOf_cons]
      exact List.mem_cons.mpr (Or.inl hp.symm)
    · simp [lookupA, hp] at h
      rw [keysOf_cons]
      exact List.mem_cons.mpr (Or.inr (ih h))

/-!  Lemmas about `usage` and `presentNames`.  -/

theorem usage_eq_presentNames_sum (ms : AL Bool) (sz : AL Nat) :
    usage ms sz = ((presentNames ms).map (sizeD sz)).sum := by
  induction ms with
  | nil => simp [usage, presentNames]
  | cons p rest ih =>
    rcases p with ⟨k, b⟩
    cases b <;> simp [usage, presentNames, ih]

theorem presentNames_sublist_keys (ms : AL Bool) :
    ∀ n, n ∈ presentNames ms → n ∈ keysOf ms := by
  induction ms with
  | nil => simp [presentNames]
  | cons p rest ih =>
    intro n hn
    rcases p with ⟨k, b⟩
    cases b with
    | false =>
      simp [presentNames] at hn
      simp [keysOf]
      exact Or.inr (by simpa [keysOf] using ih n hn)
    | true =>
      simp [presentNames] at hn
      rcases hn with hn | hn
      · simp [keysOf, hn]
      · simp [keysOf]
        exact Or.inr (by simpa [keysOf] using ih n hn)

theorem presentNames_length_le (ms : AL Bool) :
    (presentNames ms).length ≤ ms.length := by
  induction ms with
  | nil => simp [presentNames]
  | cons p rest ih =>
    rcases p with ⟨k, b⟩
    cases b <;> simp [presentNames] <;> omega

theorem firstVictim_lookupA (ms : AL Bool) (v : String)
    (hnd : (keysOf ms).Nodup) (h : firstVictim ms = some v) :
    lookupA ms v = some true := by
  induction ms with
  | nil => simp [firstVictim, presentNames] at h
  | cons p rest ih =>
    rcases p with ⟨k, b⟩
    rw [keysOf_cons, List.nodup_cons] at hnd
    have hk : k ∉ keysOf rest := hnd.1
    have hnd' : (keysOf rest).Nodup := hnd.2
    cases b with
    | true =>
      simp [firstVictim, presentNames] at h
      simp [lookupA, h]
    | false =>
      simp [firstVictim, presentNames] at h
      have hv : lookupA rest v = some true := ih hnd' h
      have hkv : k ≠ v := by
        intro hkv
        exact hk (hkv ▸ keys_of_lookupA_some rest v true hv)
      simp [lookupA, hkv, hv]

theorem nodup_lookupA_all {β : Type} (l : AL β) (n : String) (v : β)
    (hnd : (keysOf l).Nodup) (h : lookupA l n = some v) :
    ∀ p ∈ l, p.1 = n → p.2 = v := by
  induction l with
  | nil => intro p hp; simp at hp
  | cons q rest ih =>
    rw [keysOf_cons, List.nodup_cons] at hnd
    intro p hp hpn
    rcases List.mem_cons.mp hp with hp | hp
    · subst hp
      simp [lookupA, hpn] at h
      exact h
    · by_cases hq : q.1 = n
      · have hmem : n ∈ keysOf rest := by
          rw [← hpn]
          exact List.mem_map_of_mem Prod.fst hp
        exact absurd hmem (hq ▸ hnd.1)
      · simp [lookupA, hq] at h
        exact ih hnd.2 h p hp hpn

/-- Updating the recorded size of a model none of whose bindings is
present does not change the usage sum. -/
theorem usage_setA_sizes (ms : AL Bool) (sz : AL Nat) (n : String) (v : Nat)
    (h : ∀ p ∈ ms, p.1 = n → p.2 = false) :
    usage ms (setA sz n v) = usage ms sz := by
  induction ms with
  | nil => simp [usage]
  | cons p rest ih =>
    have hr : ∀ q ∈ rest, q.1 = n → q.2 = false := by
      intro q hq; exact h q (List.mem_cons.mpr (Or.inr hq))
    rcases p with ⟨k, b⟩
    by_cases hk : k = n
    · have : b = false := h (k, b) (List.mem_cons.mpr (Or.inl rfl)) hk
      subst this
      simp [usage, ih hr]
    · cases b with
      | false => simp [usage, ih hr]
      | true =>
        simp [usage, ih hr, sizeD, lookupA_setA_ne sz v hk]

/-- Unloading a loaded model removes exactly its recorded size from the
usage sum. -/
theorem usage_setA_false (ms : AL Bool) (sz : AL Nat) (v : String)
    (hnd : (keysOf ms).Nodup) (h : lookupA ms v = some true) :
    usage ms sz = usage (setA ms v false) sz + sizeD sz v := by
  induction ms with
  | nil => simp [lookupA] at h
  | cons p rest ih =>
    rw [keysOf_cons, List.nodup_cons] at hnd
    rcases p with ⟨k, b⟩
    by_cases hk : k = v
    · have hb : b = true := by simpa [lookupA, hk] using h
      subst hb
      simp [setA, hk, usage]
      omega
    · have h' : lookupA rest v = some true := by simpa [lookupA, hk] using h
      have := ih hnd.2 h'
      cases b <;> simp [setA, hk, usage, this] <;> omega

/-- Loading into an empty slot adds exactly the recorded size to the
usage sum. -/
theorem usage_setA_true (ms : AL Bool) (sz : AL Nat) (n : String)
    (hnd : (keysOf ms).Nodup) (h : lookupA ms n = some false) :
    usage (setA ms n true) sz = usage ms sz + sizeD sz n := by
  induction ms with
  | nil => simp [lookupA] at h
  | cons p rest ih =>
    rw [keysOf_cons, List.nodup_cons] at hnd
    rcases p with ⟨k, b⟩
    by_cases hk : k = n
    · have hb : b = false := by simpa [lookupA, hk] using h
      subst hb
      simp [setA, hk, usage]
      omega
    · have h' : lookupA rest n = some false := by simpa [lookupA, hk] using h
      have := ih hnd.2 h'
      cases b <;> simp [setA, hk, usage, this] <;> omega

/-!  Lemmas about the eviction loop.  -/

theorem evictLoop_keys (sz : AL Nat) (limit req : Nat) :
    ∀ fuel (ms : AL Bool) cur,
      keysOf (evictLoop sz limit req fuel ms cur).models = keysOf ms := by
  intro fuel
  induction fuel with
  | zero =>
    intro ms cur
    rw [evictLoop]
    split
    · rfl
    · split <;> rfl
  | succ fuel ih =>
    intro ms cur
    rw [evictLoop]
    split
    · rfl
    · split
      · rfl
      · rename_i v hv
        have hmem : v ∈ keysOf ms := by
          have : v ∈ presentNames ms := by
            cases hp : presentNames ms with
            | nil => simp [firstVictim, hp] at hv
            | cons a l =>
              simp [firstVictim, hp] at hv
              simp [hp, hv]
          exact presentNames_sublist_keys ms v this
        simp only []
        rw [ih (setA ms v false) (cur - sizeD sz v)]
        exact keysOf_setA_of_mem ms v false hmem

theorem evictLoop_current_le (sz : AL Nat) (limit req : Nat) :
    ∀ fuel (ms : AL Bool) cur,
      (evictLoop sz limit req fuel ms cur).current ≤ cur := by
  intro fuel
  induction fuel with
  | zero =>
    intro ms cur
    rw [evictLoop]
    split
    · exact Nat.le_refl _
    · split <;> exact Nat.le_refl _
  | succ fuel ih =>
    intro ms cur
    rw [evictLoop]
    split
    · exact Nat.le_refl _
    · split
      · exact Nat.le_refl _
      · rename_i v hv
        simp only []
        exact Nat.le_trans (ih _ _) (Nat.sub_le _ _)

theorem evictLoop_fits (sz : AL Nat) (limit req : Nat) :
    ∀ fuel (ms : AL Bool) cur,
      (evictLoop sz limit req fuel ms cur).fits = true →
      (evictLoop sz limit req fuel ms cur).current + req ≤ limit := by
  intro fuel
  induction fuel with
  | zero =>
    intro ms cur
    rw [evictLoop]
    split
    · rename_i h; intro _; exact h
    · split <;> (intro h; exact absurd h (by simp))
  | succ fuel ih =>
    intro ms cur
    rw [evictLoop]
    split
    · rename_i h; intro _; exact h
    · split
      · intro h; exact absurd h (by simp)
      · rename_i v hv
        simp only []
        exact ih _ _

theorem evictLoop_usage (sz : AL Nat) (limit req : Nat) :
    ∀ fuel (ms : AL Bool) cur, (keysOf ms).Nodup → cur = usage ms sz →
      (evictLoop sz limit req fuel ms cur).current =
        usage (evictLoop sz limit req fuel ms cur).models sz := by
  intro fuel
  induction fuel with
  | zero =>
    intro ms cur hnd hcur
    rw [evictLoop]
    split
    · exact hcur
    · split <;> exact hcur
  | succ fuel ih =>
    intro ms cur hnd hcur
    rw [evictLoop]
    split
    · exact hcur
    · split
      · exact hcur
      · rename_i v hv
        simp only []
        have hl : lookupA ms v = some true := firstVictim_lookupA ms v hnd hv
        have hnd' : (keysOf (setA ms v false)).Nodup := by
          rw [keysOf_setA_of_mem ms v false (keys_of_lookupA_some ms v true hl)]
          exact hnd
        have husage := usage_setA_false ms sz v hnd hl
        exact ih (setA ms v false) (cur - sizeD sz v) hnd' (by omega)

theorem evictLoop_lookupA_true (sz : AL Nat) (limit req : Nat) :
    ∀ fuel (ms : AL Bool) cur n,
      lookupA (evictLoop sz limit req fuel ms cur).models n = some true →
      lookupA ms n = some true := by
  intro fuel
  induction fuel with
  | zero =>
    intro ms cur n
    rw [evictLoop]
    split
    · exact fun h => h
    · split <;> exact fun h => h
  | succ fuel ih =>
    intro ms cur n
    rw [evictLoop]
    split
    · exact fun h => h
    · split
      · exact fun h => h
      · rename_i v hv
        simp only []
        intro h
        have h' := ih _ _ _ h
        by_cases hn : n = v
        · subst hn
          rw [lookupA_setA_self] at h'
          exact absurd h' (by simp)
        · rwa [lookupA_setA_ne ms false (fun hh => hn hh)] at h'

theorem evictLoop_lookupA_false (sz : AL Nat) (limit req : Nat) :
    ∀ fuel (ms : AL Bool) cur n, lookupA ms n = some false →
      lookupA (evictLoop sz limit req fuel ms cur).models n = some false := by
  intro fuel
  induction fuel with
  | zero =>
    intro ms cur n h
    rw [evictLoop]
    split
    · exact h
    · split <;> exact h
  | succ fuel ih =>
    intro ms cur n h
    rw [evictLoop]
    split
    · exact h
    · split
      · exact h
      · rename_i v hv
        simp only []
        by_cases hn : n = v
        · subst hn
          exact ih _ _ _ (lookupA_setA_self ms n false)
        · exact ih _ _ _ (by rwa [lookupA_setA_ne ms false (fun hh => hn hh)])

/-!  Well-formedness invariant of the ledger state.  -/

theorem keysOf_map_const {β : Type} (cfg : List String) (f : String → β) :
    keysOf (cfg.map fun n => (n, f n)) = cfg := by
  induction cfg with
  | nil => rfl
  | cons a l ih => simp [keysOf] at ih ⊢; exact ih

theorem usage_init (cfg : List String) (sz : AL Nat) :
    usage (cfg.map fun n => (n, false)) sz = 0 := by
  induction cfg with
  | nil => rfl
  | cons a l ih => simpa [usage] using ih

theorem wf_init (cfg : List String) (limit : Nat) :
    WF cfg (initLedger cfg limit) := by
  refine ⟨?_, ?_, ?_⟩
  · exact keysOf_map_const cfg (fun _ => false)
  · exact keysOf_map_const cfg (fun _ => 0)
  · simp [initLedger, usage_init]

theorem wf_unload (cfg : List String) (s : Ledger) (name : String)
    (hnd : cfg.Nodup) (h : WF cfg s) : WF cfg (unloadModel s name).2 := by
  unfold unloadModel
  cases hl : lookupA s.models name with
  | none => exact h
  | some b =>
    cases b with
    | false => exact h
    | true =>
      have hmem : name ∈ keysOf s.models := keys_of_lookupA_some _ _ _ hl
      have hmnd : (keysOf s.models).Nodup := h.mkeys ▸ hnd
      refine ⟨?_, h.skeys, ?_⟩
      · simp only []
        rw [keysOf_setA_of_mem _ _ _ hmem]
        exact h.mkeys
      · simp only []
        have := usage_setA_false s.models s.sizes name hmnd hl
        have hb := h.budget
        omega

theorem wf_setModel (cfg : List String) (s : Ledger) (name : String)
    (h : WF cfg s) : WF cfg (setModel s name).2 := by
  unfold setModel
  cases hl : lookupA s.models name with
  | none => exact h
  | some b =>
    cases b with
    | false => exact h
    | true => exact ⟨h.mkeys, h.skeys, h.budget⟩

theorem wf_load (cfg : List String) (s : Ledger) (name : String)
    (fetch : Option Nat) (loadOk : Bool)
    (hnd : cfg.Nodup) (h : WF cfg s) :
    WF cfg (loadModel cfg s name fetch loadOk).2 := by
  unfold loadModel
  by_cases hcfg : name ∈ cfg
  · simp only [if_pos hcfg]
    cases hl : lookupA s.models name with
    | none => exact h
    | some b =>
      cases b with
      | true => exact ⟨h.mkeys, h.skeys, h.budget⟩
      | false =>
        cases fetch with
        | none => exact h
        | some req =>
          simp only []
          have hmnd : (keysOf s.models).Nodup := h.mkeys ▸ hnd
          have hsname : name ∈ keysOf s.sizes := h.skeys ▸ hcfg
          have hskeys' : keysOf (setA s.sizes name req) = cfg := by
            rw [keysOf_setA_of_mem _ _ _ hsname]; exact h.skeys
          -- the usage sum is unchanged by recording the new size,
          -- because every binding of `name` in the models map is empty
          have hall : ∀ p ∈ s.models, p.1 = name → p.2 = false :=
            nodup_lookupA_all s.models name false hmnd hl
          have husz : usage s.models (setA s.sizes name req) =
              usage s.models s.sizes :=
            usage_setA_sizes s.models s.sizes name req hall
          have hcur : usage s.models (setA s.sizes name req) ≤ s.vramLimit := by
            rw [husz]; exact h.budget
          set sz' := setA s.sizes name req with hsz'
          set r := evictLoop sz' s.vramLimit req s.models.length s.models
            (usage s.models sz') with hr
          have hrkeys : keysOf r.models = cfg := by
            rw [hr, evictLoop_keys]; exact h.mkeys
          have hrnd : (keysOf r.models).Nodup := hrkeys ▸ hnd
          have hrusage : r.current = usage r.models sz' := by
            rw [hr]
            exact evictLoop_usage sz' s.vramLimit req s.models.length s.models
              (usage s.models sz') hmnd rfl
          have hrle : r.current ≤ usage s.models sz' := by
            rw [hr]; exact evictLoop_current_le _ _ _ _ _ _
          cases hfits : r.fits with
          | false =>
            simp only [hfits, Bool.false_eq_true, if_false]
            refine ⟨hrkeys, hskeys', ?_⟩
            show usage r.models sz' ≤ s.vramLimit
            omega
          | true =>
            simp only [hfits, if_true]
            cases loadOk with
            | false =>
              simp only [Bool.false_eq_true, if_false]
              refine ⟨hrkeys, hskeys', ?_⟩
              show usage r.models sz' ≤ s.vramLimit
              omega
            | true =>
              simp only [if_true]
              have hfalse : lookupA r.models name = some false := by
                rw [hr]
                exact evictLoop_lookupA_false sz' s.vramLimit req _ s.models
                  (usage s.models sz') name hl
              have hme : name ∈ keysOf r.models :=
                keys_of_lookupA_some _ _ _ hfalse
              have hfit := evictLoop_fits sz' s.vramLimit req s.models.length
                s.models (usage s.models sz')
              rw [← hr] at hfit
              have hfit' := hfit hfits
              refine ⟨?_, hskeys', ?_⟩
              · simp only []
                rw [keysOf_setA_of_mem _ _ _ hme]
                exact hrkeys
              · simp only []
                rw [usage_setA_true r.models sz' name hrnd hfalse]
                have hself : sizeD sz' name = req := by
                  rw [hsz']
                  simp [sizeD, lookupA_setA_self]
                omega
  · simp only [if_neg hcfg]
    exact h

theorem wf_applyOp (cfg : List String) (s : Ledger) (op : Op)
    (hnd : cfg.Nodup) (h : WF cfg s) : WF cfg (applyOp cfg s op) := by
  cases op with
  | load n f ok => exact wf_load cfg s n f ok hnd h
  | unload n => exact wf_unload cfg s n hnd h
  | setActive n => exact wf_setModel cfg s n h

theorem loadModel_vram (cfg : List String) (s : Ledger) (name : String)
    (fetch : Option Nat) (loadOk : Bool) :
    (loadModel cfg s name fetch loadOk).2.vramLimit = s.vramLimit := by
  unfold loadModel
  by_cases hcfg : name ∈ cfg
  · simp only [if_pos hcfg]
    cases lookupA s.models name with
    | none => rfl
    | some b =>
      cases b with
      | true => rfl
      | false =>
        cases fetch with
        | none => rfl
        | some req =>
          simp only []
          split
          · split <;> rfl
          · rfl
  · simp only [if_neg hcfg]

/-!  Equations characterizing each return path of `loadModel`.  -/

theorem loadModel_eq_of_notFound (cfg : List String) (s : Ledger)
    (name : String) (fetch : Option Nat) (loadOk : Bool)
    (hcfg : name ∉ cfg) :
    loadModel cfg s name fetch loadOk = (LoadResult.notFound, s) := by
  unfold loadModel
  simp only [if_neg hcfg]

theorem loadModel_eq_of_none (cfg : List String) (s : Ledger)
    (name : String) (fetch : Option Nat) (loadOk : Bool)
    (hcfg : name ∈ cfg) (hl : lookupA s.models name = none) :
    loadModel cfg s name fetch loadOk = (LoadResult.panicked, s) := by
  unfold loadModel
  simp only [if_pos hcfg, hl]

theorem loadModel_eq_of_true (cfg : List String) (s : Ledger)
    (name : String) (fetch : Option Nat) (loadOk : Bool)
    (hcfg : name ∈ cfg) (hl : lookupA s.models name = some true) :
    loadModel cfg s name fetch loadOk =
      (LoadResult.alreadyLoaded, { s with active := name }) := by
  unfold loadModel
  simp only [if_pos hcfg, hl]

theorem loadModel_eq_of_fetchFail (cfg : List String) (s : Ledger)
    (name : String) (loadOk : Bool)
    (hcfg : name ∈ cfg) (hl : lookupA s.models name = some false) :
    loadModel cfg s name none loadOk = (LoadResult.fetchFailed, s) := by
  unfold loadModel
  simp only [if_pos hcfg, hl]

theorem loadModel_eq_of_false (cfg : List String) (s : Ledger)
    (name : String) (req : Nat) (loadOk : Bool)
    (hcfg : name ∈ cfg) (hl : lookupA s.models name = some false) :
    loadModel cfg s name (some req) loadOk =
      (if (evictLoop (setA s.sizes name req) s.vramLimit req
            s.models.length s.models
            (usage s.models (setA s.sizes name req))).fits then
        if loadOk then
          (LoadResult.ok,
            { s with
                models := setA (evictLoop (setA s.sizes name req)
                  s.vramLimit req s.models.length s.models
                  (usage s.models (setA s.sizes name req))).models name true,
                sizes := setA s.sizes name req,
                active := name })
        else
          (LoadResult.loadFailed,
            { s with
                models := (evictLoop (setA s.sizes name req) s.vramLimit req
                  s.models.length s.models
                  (usage s.models (setA s.sizes name req))).models,
                sizes := setA s.sizes name req })
      else
        (LoadResult.capacityExceeded,
          { s with
              models := (evictLoop (setA s.sizes name req) s.vramLimit req
                s.models.length s.models
                (usage s.models (setA s.sizes name req))).models,
              sizes := setA s.sizes name req })) := by
  unfold loadModel
  simp only [if_pos hcfg, hl]

theorem vram_applyOp (cfg : List String) (s : Ledger) (op : Op) :
    (applyOp cfg s op).vramLimit = s.vramLimit := by
  cases op with
  | load n f ok =>
    show (loadModel cfg s n f ok).2.vramLimit = s.vramLimit
    exact loadModel_vram cfg s n f ok
  | unload n =>
    show (unloadModel s n).2.vramLimit = s.vramLimit
    unfold unloadModel
    cases lookupA s.models n with
    | none => rfl
    | some b => cases b <;> rfl
  | setActive n =>
    show (setModel s n).2.vramLimit = s.vramLimit
    unfold setModel
    cases lookupA s.models n with
    | none => rfl
    | some b => cases b <;> rfl

theorem wf_runOps (cfg : List String) (limit : Nat) (ops : List Op)
    (hnd : cfg.Nodup) :
    WF cfg (runOps cfg (initLedger cfg limit) ops) ∧
    (runOps cfg (initLedger cfg limit) ops).vramLimit = limit := by
  have hgen : ∀ (l : List Op) (s : Ledger), WF cfg s → s.vramLimit = limit →
      WF cfg (runOps cfg s l) ∧ (runOps cfg s l).vramLimit = limit := by
    intro l
    induction l with
    | nil => intro s hs hv; exact ⟨hs, hv⟩
    | cons op rest ih =>
      intro s hs hv
      exact ih (applyOp cfg s op) (wf_applyOp cfg s op hnd hs)
        ((vram_applyOp cfg s op).trans hv)
  exact hgen ops (initLedger cfg limit) (wf_init cfg limit) rfl

/-- C1: for every sequence of load/unload (and set-active) operations
executed one at a time against the startup state, after each operation
the sum of the recorded footprints of the models whose instance is
present is at most the VRAM capacity computed at startup.  (Every prefix
of a sequence is itself a sequence, so quantifying over all sequences
covers the state after each operation.) -/
theorem C1_budget_invariant (cfg : List String) (limit : Nat)
    (hnd : cfg.Nodup) (ops : List Op) :
    usage (runOps cfg (initLedger cfg limit) ops).models
      (runOps cfg (initLedger cfg limit) ops).sizes ≤ limit := by
  rcases wf_runOps cfg limit ops hnd with ⟨hwf, hv⟩
  have := hwf.budget
  omega

/-- C1 witness: a concrete sequence — load A (4000 MB), load B (4000 MB,
evicting A), unload B — against capacity 6000. -/
theorem C1_budget_invariant_witness :
    usage (runOps ["A", "B"] (initLedger ["A", "B"] 6000)
        [Op.load "A" (some 4000) true, Op.load "B" (some 4000) true,
         Op.unload "B"]).models
      (runOps ["A", "B"] (initLedger ["A", "B"] 6000)
        [Op.load "A" (some 4000) true, Op.load "B" (some 4000) true,
         Op.unload "B"]).sizes ≤ 6000 :=
  C1_budget_invariant ["A", "B"] 6000 (by decide)
    [Op.load "A" (some 4000) true, Op.load "B" (some 4000) true,
     Op.unload "B"]

/-- C10: the key set of the models map always equals the configured
names (handlers never insert a fresh key or remove one), so once the
requested name is found in the configuration, the unwrap on the
models-map lookup in `load_model_handler` cannot panic. -/
theorem C10_keys_stable_no_panic (cfg : List String) (limit : Nat)
    (hnd : cfg.Nodup) (ops : List Op) (name : String) (fetch : Option Nat)
    (loadOk : Bool) (hname : name ∈ cfg) :
    keysOf (runOps cfg (initLedger cfg limit) ops).models = cfg ∧
    (loadModel cfg (runOps cfg (initLedger cfg limit) ops) name fetch
      loadOk).1 ≠ LoadResult.panicked := by
  rcases wf_runOps cfg limit ops hnd with ⟨hwf, _⟩
  refine ⟨hwf.mkeys, ?_⟩
  rcases lookupA_mem_keys _ name (hwf.mkeys ▸ hname) with ⟨v, hv⟩
  unfold loadModel
  simp only [if_pos hname, hv]
  cases v with
  | true => simp
  | false =>
    cases fetch with
    | none => simp
    | some req =>
      simp only []
      split
      · split <;> simp
      · simp

/-- C10 witness: after loading and unloading model A, a load of model B
(which main registered with an empty slot) does not hit the panic
branch. -/
theorem C10_keys_stable_no_panic_witness :
    keysOf (runOps ["A", "B"] (initLedger ["A", "B"] 6000)
      [Op.load "A" (some 4000) true, Op.unload "A"]).models = ["A", "B"] ∧
    (loadModel ["A", "B"]
      (runOps ["A", "B"] (initLedger ["A", "B"] 6000)
        [Op.load "A" (some 4000) true, Op.unload "A"])
      "B" (some 4000) true).1 ≠ LoadResult.panicked :=
  C10_keys_stable_no_panic ["A", "B"] 6000 (by decide)
    [Op.load "A" (some 4000) true, Op.unload "A"] "B" (some 4000) true
    (by decide)

/-- C7: loading an already-loaded model is a successful no-op: the
handler returns the already-loaded message, leaves the models map and
every recorded footprint unchanged, and sets the active pointer to the
requested name. -/
theorem C7_load_idempotent (cfg : List String) (s : Ledger) (name : String)
    (fetch : Option Nat) (loadOk : Bool) (hcfg : name ∈ cfg)
    (hloaded : lookupA s.models name = some true) :
    loadModel cfg s name fetch loadOk =
      (LoadResult.alreadyLoaded, { s with active := name }) := by
  unfold loadModel
  simp only [if_pos hcfg, hloaded]

/-- C7 witness: re-loading A after it was loaded. -/
theorem C7_load_idempotent_witness :
    loadModel ["A", "B"]
      (runOps ["A", "B"] (initLedger ["A", "B"] 6000)
        [Op.load "A" (some 4000) true]) "A" none false =
      (LoadResult.alreadyLoaded,
        { runOps ["A", "B"] (initLedger ["A", "B"] 6000)
            [Op.load "A" (some 4000) true] with active := "A" }) :=
  C7_load_idempotent ["A", "B"] _ "A" none false (by decide) (by decide)

/-- C4 counterexample: load A (4000 MB, capacity 6000), then request
model B of 9000 MB.  The handler evicts A to make room, discovers B
still does not fit and fails — leaving the active pointer at "A",
which is no longer loaded.  Eviction inside `load_model_handler` never
clears the pointer, so the claimed invariant fails. -/
theorem C4_counterexample :
    (runOps ["A", "B"] (initLedger ["A", "B"] 6000)
      [Op.load "A" (some 4000) true, Op.load "B" (some 9000) true]).active
      = "A" ∧
    lookupA (runOps ["A", "B"] (initLedger ["A", "B"] 6000)
      [Op.load "A" (some 4000) true, Op.load "B" (some 9000) true]).models
      "A" = some false ∧
    ¬ activeOK (runOps ["A", "B"] (initLedger ["A", "B"] 6000)
      [Op.load "A" (some 4000) true, Op.load "B" (some 9000) true]) := by
  decide

/-- C4 amended: explicit unload clears the pointer and a load that runs
to a non-failing result preserves pointer integrity; only a load that
fails with CapacityExceeded or LoadError after evicting can leave the
pointer naming an unloaded model.  Stated for one operation: if the
pointer invariant holds before, it holds after `unload_model`, after
`set_model`, and after any `load_model` whose result is not
CapacityExceeded and not LoadError. -/
theorem C4_amended (cfg : List String) (s : Ledger) (name : String)
    (fetch : Option Nat) (loadOk : Bool) (h : activeOK s) :
    activeOK (unloadModel s name).2 ∧
    activeOK (setModel s name).2 ∧
    ((loadModel cfg s name fetch loadOk).1 ≠ LoadResult.capacityExceeded →
     (loadModel cfg s name fetch loadOk).1 ≠ LoadResult.loadFailed →
     activeOK (loadModel cfg s name fetch loadOk).2) := by
  refine ⟨?_, ?_, ?_⟩
  · unfold unloadModel
    cases hl : lookupA s.models name with
    | none => exact h
    | some b =>
      cases b with
      | false => exact h
      | true =>
        by_cases ha : s.active = name
        · simp only [ha, if_pos rfl]
          exact Or.inl rfl
        · simp only [if_neg ha]
          rcases h with h | h
          · exact Or.inl h
          · refine Or.inr ?_
            show lookupA (setA s.models name false) s.active = some true
            rwa [lookupA_setA_ne s.models false ha]
  · unfold setModel
    cases hl : lookupA s.models name with
    | none => exact h
    | some b =>
      cases b with
      | false => exact h
      | true => exact Or.inr hl
  · intro hcap hload
    by_cases hcfg : name ∈ cfg
    · cases hl : lookupA s.models name with
      | none =>
        rw [loadModel_eq_of_none cfg s name fetch loadOk hcfg hl]
        exact h
      | some b =>
        cases b with
        | true =>
          rw [loadModel_eq_of_true cfg s name fetch loadOk hcfg hl]
          exact Or.inr hl
        | false =>
          cases fetch with
          | none =>
            rw [loadModel_eq_of_fetchFail cfg s name loadOk hcfg hl]
            exact h
          | some req =>
            rw [loadModel_eq_of_false cfg s name req loadOk hcfg hl]
              at hcap hload ⊢
            cases hfits : (evictLoop (setA s.sizes name req) s.vramLimit req
                s.models.length s.models
                (usage s.models (setA s.sizes name req))).fits with
            | false =>
              rw [hfits] at hcap
              simp at hcap
            | true =>
              cases hok : loadOk with
              | false =>
                rw [hfits, hok] at hload
                simp at hload
              | true =>
                exact Or.inr (lookupA_setA_self _ name true)
    · rw [loadModel_eq_of_notFound cfg s name fetch loadOk hcfg]
      exact h

/-- C4 amended witness: a successful eviction-free load preserves the
pointer invariant starting from a state whose pointer is empty. -/
theorem C4_amended_witness :
    activeOK (unloadModel (initLedger ["A"] 6000) "A").2 ∧
    activeOK (setModel (initLedger ["A"] 6000) "A").2 ∧
    ((loadModel ["A"] (initLedger ["A"] 6000) "A" (some 4000) true).1 ≠
        LoadResult.capacityExceeded →
     (loadModel ["A"] (initLedger ["A"] 6000) "A" (some 4000) true).1 ≠
        LoadResult.loadFailed →
     activeOK (loadModel ["A"] (initLedger ["A"] 6000) "A"
        (some 4000) true).2) :=
  C4_amended ["A"] (initLedger ["A"] 6000) "A" (some 4000) true
    (Or.inl rfl)

/-- C3 counterexample: with A loaded (4000 MB of 6000), a load of B
measured at 9000 MB fails with CapacityExceeded — but the ledger state
after the failure differs from the state before: A has been evicted
and B's measured footprint has been recorded, so the operation is not
atomic on failure. -/
theorem C3_counterexample :
    (loadModel ["A", "B"]
      (runOps ["A", "B"] (initLedger ["A", "B"] 6000)
        [Op.load "A" (some 4000) true]) "B" (some 9000) true).1 =
      LoadResult.capacityExceeded ∧
    (loadModel ["A", "B"]
      (runOps ["A", "B"] (initLedger ["A", "B"] 6000)
        [Op.load "A" (some 4000) true]) "B" (some 9000) true).2 ≠
      runOps ["A", "B"] (initLedger ["A", "B"] 6000)
        [Op.load "A" (some 4000) true] := by
  decide

/-- C3 amended: a load that fails during the fetch leaves the ledger
unchanged; a load that fails with CapacityExceeded or LoadError leaves
the requested model unloaded, only removes models (any model loaded
afterwards was loaded before), keeps the active pointer and capacity,
and retains the recorded footprint for the requested name (the
reservation is not rolled back) — but evictions performed before the
failure persist. -/
theorem C3_amended (cfg : List String) (s s' : Ledger) (name : String)
    (req : Nat) (loadOk : Bool)
    (hres : (loadModel cfg s name (some req) loadOk).1 =
        LoadResult.capacityExceeded ∨
      (loadModel cfg s name (some req) loadOk).1 = LoadResult.loadFailed)
    (hs' : s' = (loadModel cfg s name (some req) loadOk).2) :
    lookupA s'.models name = some false ∧
    (∀ m, lookupA s'.models m = some true → lookupA s.models m = some true) ∧
    s'.sizes = setA s.sizes name req ∧
    s'.active = s.active ∧
    s'.vramLimit = s.vramLimit ∧
    (∀ failOk : Bool, (loadModel cfg s name none failOk).1 =
        LoadResult.fetchFailed → (loadModel cfg s name none failOk).2 = s) := by
  subst hs'
  by_cases hcfg : name ∈ cfg
  · cases hl : lookupA s.models name with
    | none =>
      rw [loadModel_eq_of_none cfg s name (some req) loadOk hcfg hl] at hres
      simp at hres
    | some b =>
      cases b with
      | true =>
        rw [loadModel_eq_of_true cfg s name (some req) loadOk hcfg hl] at hres
        simp at hres
      | false =>
        rw [loadModel_eq_of_false cfg s name req loadOk hcfg hl] at hres ⊢
        have hfetch : ∀ failOk : Bool,
            (loadModel cfg s name none failOk).1 = LoadResult.fetchFailed →
            (loadModel cfg s name none failOk).2 = s := by
          intro failOk _
          rw [loadModel_eq_of_fetchFail cfg s name failOk hcfg hl]
        cases hfits : (evictLoop (setA s.sizes name req) s.vramLimit req
            s.models.length s.models
            (usage s.models (setA s.sizes name req))).fits with
        | true =>
          cases hok : loadOk with
          | true =>
            rw [hfits, hok] at hres
            simp at hres
          | false =>
            refine ⟨?_, ?_, rfl, rfl, rfl, hfetch⟩
            · exact evictLoop_lookupA_false _ _ _ _ _ _ name hl
            · intro m hm
              exact evictLoop_lookupA_true _ _ _ _ _ _ m hm
        | false =>
          refine ⟨?_, ?_, rfl, rfl, rfl, hfetch⟩
          · exact evictLoop_lookupA_false _ _ _ _ _ _ name hl
          · intro m hm
            exact evictLoop_lookupA_true _ _ _ _ _ _ m hm
  · rw [loadModel_eq_of_notFound cfg s name (some req) loadOk hcfg] at hres
    simp at hres

/-- C3 amended witness: the CapacityExceeded failure above satisfies
the amended description. -/
theorem C3_amended_witness :
    lookupA (loadModel ["A", "B"]
        (runOps ["A", "B"] (initLedger ["A", "B"] 6000)
          [Op.load "A" (some 4000) true]) "B" (some 9000) true).2.models
      "B" = some false ∧
    (∀ m, lookupA (loadModel ["A", "B"]
        (runOps ["A", "B"] (initLedger ["A", "B"] 6000)
          [Op.load "A" (some 4000) true]) "B" (some 9000) true).2.models
        m = some true →
      lookupA (runOps ["A", "B"] (initLedger ["A", "B"] 6000)
        [Op.load "A" (some 4000) true]).models m = some true) ∧
    (loadModel ["A", "B"]
        (runOps ["A", "B"] (initLedger ["A", "B"] 6000)
          [Op.load "A" (some 4000) true]) "B" (some 9000) true).2.sizes =
      setA (runOps ["A", "B"] (initLedger ["A", "B"] 6000)
        [Op.load "A" (some 4000) true]).sizes "B" 9000 ∧
    (loadModel ["A", "B"]
        (runOps ["A", "B"] (initLedger ["A", "B"] 6000)
          [Op.load "A" (some 4000) true]) "B" (some 9000) true).2.active =
      (runOps ["A", "B"] (initLedger ["A", "B"] 6000)
        [Op.load "A" (some 4000) true]).active ∧
    (loadModel ["A", "B"]
        (runOps ["A", "B"] (initLedger ["A", "B"] 6000)
          [Op.load "A" (some 4000) true]) "B" (some 9000) true).2.vramLimit =
      (runOps ["A", "B"] (initLedger ["A", "B"] 6000)
        [Op.load "A" (some 4000) true]).vramLimit ∧
    (∀ failOk : Bool, (loadModel ["A", "B"]
        (runOps ["A", "B"] (initLedger ["A", "B"] 6000)
          [Op.load "A" (some 4000) true]) "B" none failOk).1 =
        LoadResult.fetchFailed →
      (loadModel ["A", "B"]
        (runOps ["A", "B"] (initLedger ["A", "B"] 6000)
          [Op.load "A" (some 4000) true]) "B" none failOk).2 =
      runOps ["A", "B"] (initLedger ["A", "B"] 6000)
        [Op.load "A" (some 4000) true]) :=
  C3_amended ["A", "B"] _ _ "B" 9000 true (Or.inl (by decide)) rfl

/-!  Victim selection (C8).  -/

theorem presentNames_setA_false_head (ms : AL Bool) (v : String)
    (rest : List String) (hnd : (keysOf ms).Nodup)
    (h : presentNames ms = v :: rest) :
    presentNames (setA ms v false) = rest := by
  induction ms with
  | nil => simp [presentNames] at h
  | cons p ms' ih =>
    rw [keysOf_cons, List.nodup_cons] at hnd
    rcases p with ⟨k, b⟩
    cases b with
    | true =>
      simp [presentNames] at h
      rcases h with ⟨hk, hrest⟩
      subst hk
      simp [setA, presentNames, hrest]
    | false =>
      simp [presentNames] at h
      have hkv : k ≠ v := by
        intro hkv
        have hv : v ∈ presentNames ms' := by
          rw [h]
          exact List.mem_cons_self v rest
        exact hnd.1 (hkv ▸ presentNames_sublist_keys ms' v hv)
      simp [setA, hkv, presentNames]
      exact ih hnd.2 h

theorem evictLoop_eq_spec (sz : AL Nat) (limit req : Nat) :
    ∀ (names : List String) (fuel : Nat) (ms : AL Bool) (cur : Nat),
      (keysOf ms).Nodup → presentNames ms = names → names.length ≤ fuel →
      (evictLoop sz limit req fuel ms cur).victims =
        (evictSpec (sizeD sz) limit req names cur).1 ∧
      (evictLoop sz limit req fuel ms cur).fits =
        (evictSpec (sizeD sz) limit req names cur).2 := by
  intro names
  induction names with
  | nil =>
    intro fuel ms cur hnd hp hlen
    rw [evictLoop, evictSpec]
    split
    · exact ⟨rfl, rfl⟩
    · have : firstVictim ms = none := by simp [firstVictim, hp]
      rw [this]
      match fuel with
      | 0 => exact ⟨rfl, rfl⟩
      | fuel' + 1 => exact ⟨rfl, rfl⟩
  | cons v rest ih =>
    intro fuel ms cur hnd hp hlen
    rw [evictLoop, evictSpec]
    split
    · exact ⟨rfl, rfl⟩
    · have hfv : firstVictim ms = some v := by simp [firstVictim, hp]
      rw [hfv]
      match fuel, hlen with
      | fuel' + 1, hlen =>
        simp only []
        have hvk : v ∈ keysOf ms :=
          presentNames_sublist_keys ms v (by simp [hp])
        have hnd' : (keysOf (setA ms v false)).Nodup := by
          rw [keysOf_setA_of_mem ms v false hvk]; exact hnd
        have hp' : presentNames (setA ms v false) = rest :=
          presentNames_setA_false_head ms v rest hnd hp
        have hlen' : rest.length ≤ fuel' := by
          simp at hlen; omega
        rcases ih fuel' (setA ms v false) (cur - sizeD sz v) hnd' hp' hlen'
          with ⟨h1, h2⟩
        exact ⟨by rw [h1], by rw [h2]⟩

/-- C8 counterexample: two ledger states that are equal as unordered
maps (same loaded set, same footprints, same active pointer, same
capacity) but whose models maps iterate in different orders make
`load_model_handler` evict different victims: the victim scan takes the
first loaded entry in map iteration order, which is not a function of
the ledger state. -/
theorem C8_counterexample :
    alEquiv
      (Ledger.mk [("A", true), ("B", true), ("C", false)]
        [("A", 3000), ("B", 3000), ("C", 0)] "A" 6000).models
      (Ledger.mk [("B", true), ("A", true), ("C", false)]
        [("A", 3000), ("B", 3000), ("C", 0)] "A" 6000).models = true ∧
    (Ledger.mk [("A", true), ("B", true), ("C", false)]
        [("A", 3000), ("B", 3000), ("C", 0)] "A" 6000).sizes =
      (Ledger.mk [("B", true), ("A", true), ("C", false)]
        [("A", 3000), ("B", 3000), ("C", 0)] "A" 6000).sizes ∧
    loadVictims (Ledger.mk [("A", true), ("B", true), ("C", false)]
        [("A", 3000), ("B", 3000), ("C", 0)] "A" 6000) "C" 3000 = ["A"] ∧
    loadVictims (Ledger.mk [("B", true), ("A", true), ("C", false)]
        [("A", 3000), ("B", 3000), ("C", 0)] "A" 6000) "C" 3000 = ["B"] ∧
    loadVictims (Ledger.mk [("A", true), ("B", true), ("C", false)]
        [("A", 3000), ("B", 3000), ("C", 0)] "A" 6000) "C" 3000 ≠
      loadVictims (Ledger.mk [("B", true), ("A", true), ("C", false)]
        [("A", 3000), ("B", 3000), ("C", 0)] "A" 6000) "C" 3000 := by
  decide

/-- C8 amended: victim selection is deterministic only relative to the
models map's iteration order — two load executions whose ledger states
have the same iteration-ordered list of loaded names, pointwise-equal
recorded footprints and equal capacity select the same victim sequence;
states that merely coincide as unordered maps need not (see the
counterexample). -/
theorem C8_amended (s1 s2 : Ledger) (name : String) (req : Nat)
    (hnd1 : (keysOf s1.models).Nodup) (hnd2 : (keysOf s2.models).Nodup)
    (hp : presentNames s1.models = presentNames s2.models)
    (hsz : ∀ k, lookupA s1.sizes k = lookupA s2.sizes k)
    (hlim : s1.vramLimit = s2.vramLimit) :
    loadVictims s1 name req = loadVictims s2 name req := by
  have hf : sizeD (setA s1.sizes name req) = sizeD (setA s2.sizes name req) := by
    funext k
    by_cases hk : k = name
    · subst hk
      simp [sizeD, lookupA_setA_self]
    · unfold sizeD
      rw [lookupA_setA_ne s1.sizes req hk, lookupA_setA_ne s2.sizes req hk,
        hsz k]
  have hu : usage s1.models (setA s1.sizes name req) =
      usage s2.models (setA s2.sizes name req) := by
    rw [usage_eq_presentNames_sum, usage_eq_presentNames_sum, hp, hf]
  unfold loadVictims
  rcases evictLoop_eq_spec (setA s1.sizes name req) s1.vramLimit req
      (presentNames s1.models) s1.models.length s1.models
      (usage s1.models (setA s1.sizes name req)) hnd1 rfl
      (presentNames_length_le s1.models) with ⟨h1, _⟩
  rcases evictLoop_eq_spec (setA s2.sizes name req) s2.vramLimit req
      (presentNames s2.models) s2.models.length s2.models
      (usage s2.models (setA s2.sizes name req)) hnd2 rfl
      (presentNames_length_le s2.models) with ⟨h2, _⟩
  rw [h1, h2, hp, hf, hu, hlim]

/-- C8 amended witness: two states with differently-placed empty slots
but the same iteration order of loaded names evict identically. -/
theorem C8_amended_witness :
    loadVictims (Ledger.mk [("A", true), ("C", false), ("B", true)]
      [("A", 3000), ("B", 3000), ("C", 0)] "" 6000) "C" 3000 =
    loadVictims (Ledger.mk [("C", false), ("A", true), ("B", true)]
      [("A", 3000), ("B", 3000), ("C", 0)] "" 6000) "C" 3000 :=
  C8_amended
    (Ledger.mk [("A", true), ("C", false), ("B", true)]
      [("A", 3000), ("B", 3000), ("C", 0)] "" 6000)
    (Ledger.mk [("C", false), ("A", true), ("B", true)]
      [("A", 3000), ("B", 3000), ("C", 0)] "" 6000)
    "C" 3000 (by decide) (by decide) (by decide) (fun k => rfl) rfl

/-!  The generation loop: iteration bound and stop-token termination.  -/

theorem genLoop_steps_le (d : List Nat → Option (List Char))
    (n : Nat → Option Nat) (stops : List Nat) (e : Nat → Bool) :
    ∀ fuel idx st,
      ((genLoop d n stops e fuel idx st).2).steps ≤ st.steps + fuel := by
  intro fuel
  induction fuel with
  | zero =>
    intro idx st
    rw [genLoop]
    simp
  | succ fuel ih =>
    intro idx st
    cases hn : n idx with
    | none => simp [genLoop, hn]
    | some tok =>
      cases hd : d (st.ids ++ [tok]) with
      | none => simp [genLoop, hn, hd]
      | some cur =>
        by_cases hlen : st.prevLen < cur.length
        · cases he : e st.emitted.length with
          | false => simp [genLoop, hn, hd, hlen, he]
          | true =>
            by_cases hs : tok ∈ stops
            · simp [genLoop, hn, hd, hlen, he, hs]
            · have h1 : (genLoop d n stops e fuel (idx + 1)
                  ⟨st.ids ++ [tok], cur.length,
                    st.emitted ++ [cur.drop st.prevLen],
                    st.steps + 1⟩).2.steps ≤ st.steps + 1 + fuel :=
                ih (idx + 1) ⟨st.ids ++ [tok], cur.length,
                  st.emitted ++ [cur.drop st.prevLen], st.steps + 1⟩
              simp [genLoop, hn, hd, hlen, he, hs]
              omega
        · by_cases hs : tok ∈ stops
          · simp [genLoop, hn, hd, hlen, hs]
          · have h1 : (genLoop d n stops e fuel (idx + 1)
                ⟨st.ids ++ [tok], st.prevLen, st.emitted,
                  st.steps + 1⟩).2.steps ≤ st.steps + 1 + fuel :=
              ih (idx + 1) ⟨st.ids ++ [tok], st.prevLen, st.emitted,
                st.steps + 1⟩
            simp [genLoop, hn, hd, hlen, hs]
            omega

theorem genLoop_stop_exact (d : List Nat → Option (List Char))
    (n : Nat → Option Nat) (stops : List Nat) (e : Nat → Bool)
    (hd : ∀ l, d l ≠ none) (he : ∀ m, e m = true) :
    ∀ k fuel idx st, k < fuel →
      (∀ i, i ≤ k → n (idx + i) ≠ none) →
      (∀ i t, i < k → n (idx + i) = some t → t ∉ stops) →
      (∀ t, n (idx + k) = some t → t ∈ stops) →
      (genLoop d n stops e fuel idx st).1 = RunResult.ok ∧
      ((genLoop d n stops e fuel idx st).2).steps = st.steps + k + 1 := by
  intro k
  induction k with
  | zero =>
    intro fuel idx st hk hn hns hs
    match fuel, hk with
    | fuel' + 1, _ =>
      have h0 : n idx ≠ none := by simpa using hn 0 (Nat.le_refl 0)
      cases hni : n idx with
      | none => exact absurd hni h0
      | some t =>
        have hts : t ∈ stops := hs t (by simpa using hni)
        cases hdi : d (st.ids ++ [t]) with
        | none => exact absurd hdi (hd _)
        | some cur =>
          by_cases hlen : st.prevLen < cur.length
          · simp [genLoop, hni, hdi, hlen, he st.emitted.length, hts]
          · simp [genLoop, hni, hdi, hlen, hts]
  | succ k ih =>
    intro fuel idx st hk hn hns hs
    match fuel with
    | fuel' + 1 =>
      have h0 : n idx ≠ none := by simpa using hn 0 (Nat.zero_le _)
      cases hni : n idx with
      | none => exact absurd hni h0
      | some t =>
        have hnt : t ∉ stops :=
          hns 0 t (Nat.succ_pos k) (by simpa using hni)
        have hn' : ∀ i, i ≤ k → n (idx + 1 + i) ≠ none := by
          intro i hi
          have harr : idx + 1 + i = idx + (i + 1) := by omega
          rw [harr]
          exact hn (i + 1) (by omega)
        have hns' : ∀ i t', i < k → n (idx + 1 + i) = some t' → t' ∉ stops := by
          intro i t' hi ht'
          have harr : idx + 1 + i = idx + (i + 1) := by omega
          rw [harr] at ht'
          exact hns (i + 1) t' (by omega) ht'
        have hs' : ∀ t', n (idx + 1 + k) = some t' → t' ∈ stops := by
          intro t' ht'
          have harr : idx + 1 + k = idx + (k + 1) := by omega
          rw [harr] at ht'
          exact hs t' ht'
        have hk' : k < fuel' := by omega
        cases hdi : d (st.ids ++ [t]) with
        | none => exact absurd hdi (hd _)
        | some cur =>
          by_cases hlen : st.prevLen < cur.length
          · have h1 : (genLoop d n stops e fuel' (idx + 1)
                ⟨st.ids ++ [t], cur.length,
                  st.emitted ++ [cur.drop st.prevLen],
                  st.steps + 1⟩).1 = RunResult.ok ∧
                (genLoop d n stops e fuel' (idx + 1)
                  ⟨st.ids ++ [t], cur.length,
                    st.emitted ++ [cur.drop st.prevLen],
                    st.steps + 1⟩).2.steps = st.steps + 1 + k + 1 :=
              ih fuel' (idx + 1) ⟨st.ids ++ [t], cur.length,
                st.emitted ++ [cur.drop st.prevLen], st.steps + 1⟩
                hk' hn' hns' hs'
            simp [genLoop, hni, hdi, hlen, he st.emitted.length, hnt, h1.1,
              h1.2]
            omega
          · have h1 : (genLoop d n stops e fuel' (idx + 1)
                ⟨st.ids ++ [t], st.prevLen, st.emitted,
                  st.steps + 1⟩).1 = RunResult.ok ∧
                (genLoop d n stops e fuel' (idx + 1)
                  ⟨st.ids ++ [t], st.prevLen, st.emitted,
                    st.steps + 1⟩).2.steps = st.steps + 1 + k + 1 :=
              ih fuel' (idx + 1)
                ⟨st.ids ++ [t], st.prevLen, st.emitted, st.steps + 1⟩
                hk' hn' hns' hs'
            simp [genLoop, hni, hdi, hlen, hnt, h1.1, h1.2]
            omega

/-- C6: the generation loop of `run_inference` executes at most
`max_tokens` iterations; and when the sampled token at 0-based step `k`
is the first one in the stop-token set, the loop terminates at that
iteration with success, having generated exactly `k + 1` tokens — later
iterations never run. -/
theorem C6_loop_bound_and_stop (tk : Tok) (next : Nat → Option Nat)
    (params : InferenceParams) (prompt : List Char) (ids0 : List Nat)
    (k : Nat)
    (henc : tk.encode prompt = some ids0)
    (hd : ∀ l, tk.decode l ≠ none)
    (hn : ∀ i, i ≤ k → next i ≠ none)
    (hns : ∀ i t, i < k → next i = some t → t ∉ stopTokenIds tk)
    (hs : ∀ t, next k = some t → t ∈ stopTokenIds tk)
    (hk : k < params.maxTokens.getD 1024) :
    (∀ (tk2 : Tok) (nx : Nat → Option Nat) (eo : Nat → Bool)
        (p2 : InferenceParams) (pr : List Char),
        ((runInference tk2 nx eo p2 pr).2).steps ≤ p2.maxTokens.getD 1024) ∧
    (runInference tk next (fun _ => true) params prompt).1 = RunResult.ok ∧
    ((runInference tk next (fun _ => true) params prompt).2).steps = k + 1 := by
  constructor
  · intro tk2 nx eo p2 pr
    cases hE : tk2.encode pr with
    | none => simp [runInference, hE]
    | some l0 =>
      cases hD : tk2.decode l0 with
      | none => simp [runInference, hD, hE]
      | some txt =>
        have h1 : (genLoop tk2.decode nx (stopTokenIds tk2) eo
            (p2.maxTokens.getD 1024) 0
            ⟨l0, txt.length, [], 0⟩).2.steps ≤
              0 + p2.maxTokens.getD 1024 :=
          genLoop_steps_le tk2.decode nx (stopTokenIds tk2) eo
            (p2.maxTokens.getD 1024) 0 ⟨l0, txt.length, [], 0⟩
        have hrun : runInference tk2 nx eo p2 pr =
            genLoop tk2.decode nx (stopTokenIds tk2) eo
              (p2.maxTokens.getD 1024) 0 ⟨l0, txt.length, [], 0⟩ := by
          simp [runInference, hE, hD]
        rw [hrun]
        omega
  · cases hdp : tk.decode ids0 with
    | none => exact absurd hdp (hd ids0)
    | some init =>
      have hn0 : ∀ i, i ≤ k → next (0 + i) ≠ none := by
        intro i hi
        rw [Nat.zero_add]
        exact hn i hi
      have hns0 : ∀ i t, i < k → next (0 + i) = some t →
          t ∉ stopTokenIds tk := by
        intro i t hi ht
        rw [Nat.zero_add] at ht
        exact hns i t hi ht
      have hs0 : ∀ t, next (0 + k) = some t → t ∈ stopTokenIds tk := by
        intro t ht
        rw [Nat.zero_add] at ht
        exact hs t ht
      have big := genLoop_stop_exact tk.decode next (stopTokenIds tk)
        (fun _ => true) hd (fun _ => rfl) k (params.maxTokens.getD 1024) 0
        ⟨ids0, init.length, [], 0⟩ hk hn0 hns0 hs0
      have hrun : runInference tk next (fun _ => true) params prompt =
          genLoop tk.decode next (stopTokenIds tk) (fun _ => true)
            (params.maxTokens.getD 1024) 0 ⟨ids0, init.length, [], 0⟩ := by
        simp [runInference, henc, hdp]
      rw [hrun]
      refine ⟨big.1, ?_⟩
      rw [big.2]
      show 0 + k + 1 = k + 1
      omega

/-- C6 witness: `max_tokens = 5`, the oracle samples the stop token 999
(`</s>`) at 0-based step 2 — the run succeeds and generates exactly 3
tokens; steps 4 and 5 never execute. -/
theorem C6_loop_bound_and_stop_witness :
    (runInference
      (Tok.mk (fun _ => some [7])
        (fun l => some (List.replicate l.length 'a'))
        (fun _ => some 999))
      (fun i => if i = 2 then some 999 else some 1)
      (fun _ => true) (InferenceParams.mk (some 5)) ['h']).1 =
        RunResult.ok ∧
    ((runInference
      (Tok.mk (fun _ => some [7])
        (fun l => some (List.replicate l.length 'a'))
        (fun _ => some 999))
      (fun i => if i = 2 then some 999 else some 1)
      (fun _ => true) (InferenceParams.mk (some 5)) ['h']).2).steps = 3 :=
  (C6_loop_bound_and_stop
    (Tok.mk (fun _ => some [7])
      (fun l => some (List.replicate l.length 'a'))
      (fun _ => some 999))
    (fun i => if i = 2 then some 999 else some 1)
    (InferenceParams.mk (some 5)) ['h'] [7] 2
    rfl
    (fun l => by simp)
    (fun i hi => by by_cases h2 : i = 2 <;> simp [h2])
    (fun i t hi ht => by
      have h2 : ¬ i = 2 := by omega
      simp [h2] at ht
      subst ht
      decide)
    (fun t ht => by
      simp at ht
      subst ht
      decide)
    (by decide)).2

/-!  Streaming completeness (C5).  -/

theorem genLoop_emitted_join (d : List Nat → Option (List Char))
    (n : Nat → Option Nat) (stops : List Nat) (e : Nat → Bool)
    (hmono : ∀ (l : List Nat) (t : Nat) (c c' : List Char),
      d l = some c → d (l ++ [t]) = some c' → ∃ tail, c' = c ++ tail) :
    ∀ fuel idx st cur initLen,
      d st.ids = some cur → st.prevLen = cur.length →
      st.emitted.join = cur.drop initLen → initLen ≤ cur.length →
      (genLoop d n stops e fuel idx st).1 = RunResult.ok →
      ∃ fin, d ((genLoop d n stops e fuel idx st).2).ids = some fin ∧
        ((genLoop d n stops e fuel idx st).2).emitted.join =
          fin.drop initLen ∧
        initLen ≤ fin.length := by
  intro fuel
  induction fuel with
  | zero =>
    intro idx st cur initLen hdc hprev hjoin hinit hok
    exact ⟨cur, hdc, hjoin, hinit⟩
  | succ fuel ih =>
    intro idx st cur initLen hdc hprev hjoin hinit hok
    cases hni : n idx with
    | none => simp [genLoop, hni] at hok
    | some t =>
      cases hdi : d (st.ids ++ [t]) with
      | none => simp [genLoop, hni, hdi] at hok
      | some c2 =>
        rcases hmono st.ids t cur c2 hdc hdi with ⟨tail, htail⟩
        have hlen2 : c2.length = cur.length + tail.length := by
          rw [htail]
          simp
        by_cases hlen : st.prevLen < c2.length
        · cases hei : e st.emitted.length with
          | false => simp [genLoop, hni, hdi, hlen, hei] at hok
          | true =>
            have hstep : genLoop d n stops e (fuel + 1) idx st =
                if t ∈ stops then
                  (RunResult.ok, ⟨st.ids ++ [t], c2.length,
                    st.emitted ++ [c2.drop st.prevLen], st.steps + 1⟩)
                else
                  genLoop d n stops e fuel (idx + 1)
                    ⟨st.ids ++ [t], c2.length,
                      st.emitted ++ [c2.drop st.prevLen], st.steps + 1⟩ := by
              simp [genLoop, hni, hdi, hlen, hei]
            have hdrop1 : c2.drop st.prevLen = tail := by
              rw [htail, hprev]
              simp
            have hja : (st.emitted ++ [c2.drop st.prevLen]).join =
                st.emitted.join ++ c2.drop st.prevLen := by
              simp
            have hdrop2 : (cur ++ tail).drop initLen =
                cur.drop initLen ++ tail := by
              rw [List.drop_append_eq_append_drop,
                Nat.sub_eq_zero_of_le hinit]
              simp
            have hjoin' : (st.emitted ++ [c2.drop st.prevLen]).join =
                c2.drop initLen := by
              rw [hja, hdrop1, htail, hdrop2, ← hjoin]
            have hinit' : initLen ≤ c2.length := by omega
            rw [hstep] at hok ⊢
            by_cases hst : t ∈ stops
            · rw [if_pos hst] at hok ⊢
              exact ⟨c2, hdi, hjoin', hinit'⟩
            · rw [if_neg hst] at hok ⊢
              exact ih (idx + 1)
                ⟨st.ids ++ [t], c2.length,
                  st.emitted ++ [c2.drop st.prevLen], st.steps + 1⟩
                c2 initLen hdi rfl hjoin' hinit' hok
        · have htail0 : c2 = cur := by
            have h1 : c2.length ≤ st.prevLen := Nat.not_lt.mp hlen
            have h2 : tail.length = 0 := by omega
            have h3 : tail = [] := List.length_eq_zero.mp h2
            simp [htail, h3]
          have hstep : genLoop d n stops e (fuel + 1) idx st =
              if t ∈ stops then
                (RunResult.ok,
                  ⟨st.ids ++ [t], st.prevLen, st.emitted, st.steps + 1⟩)
              else
                genLoop d n stops e fuel (idx + 1)
                  ⟨st.ids ++ [t], st.prevLen, st.emitted, st.steps + 1⟩ := by
            simp [genLoop, hni, hdi, hlen]
          have hdc' : d (st.ids ++ [t]) = some cur := by
            rw [hdi, htail0]
          rw [hstep] at hok ⊢
          by_cases hst : t ∈ stops
          · rw [if_pos hst] at hok ⊢
            exact ⟨cur, hdc', hjoin, hinit⟩
          · rw [if_neg hst] at hok ⊢
            exact ih (idx + 1)
              ⟨st.ids ++ [t], st.prevLen, st.emitted, st.steps + 1⟩
              cur initLen hdc' hprev hjoin hinit hok

/-- C5 counterexample: `run_inference` with a detokenizer that is not
prefix-monotone (adding token 2 rewrites the previously produced "?")
finishes successfully, but the concatenation of the emitted deltas is
"b?" while the suffix of the final full decode beyond the initial
prompt decode is "bX": the emitted stream has corrupted output, so the
claimed equality does not hold for every generation run. -/
theorem C5_counterexample :
    (runInference
        (Tok.mk (fun _ => some [0])
          (fun l =>
            if l = [0] then some ['P']
            else if l = [0, 1] then some ['P', 'b', '?']
            else if l = [0, 1, 2] then some ['P', 'b', 'X']
            else some [])
          (fun _ => some 999))
        (fun i => if i = 0 then some 1 else some 2)
        (fun _ => true) (InferenceParams.mk (some 2)) ['p']).1 =
      RunResult.ok ∧
    ((runInference
        (Tok.mk (fun _ => some [0])
          (fun l =>
            if l = [0] then some ['P']
            else if l = [0, 1] then some ['P', 'b', '?']
            else if l = [0, 1, 2] then some ['P', 'b', 'X']
            else some [])
          (fun _ => some 999))
        (fun i => if i = 0 then some 1 else some 2)
        (fun _ => true) (InferenceParams.mk (some 2)) ['p']).2).ids =
      [0, 1, 2] ∧
    ((runInference
        (Tok.mk (fun _ => some [0])
          (fun l =>
            if l = [0] then some ['P']
            else if l = [0, 1] then some ['P', 'b', '?']
            else if l = [0, 1, 2] then some ['P', 'b', 'X']
            else some [])
          (fun _ => some 999))
        (fun i => if i = 0 then some 1 else some 2)
        (fun _ => true) (InferenceParams.mk (some 2)) ['p']).2).emitted.join =
      ['b', '?'] ∧
    ((runInference
        (Tok.mk (fun _ => some [0])
          (fun l =>
            if l = [0] then some ['P']
            else if l = [0, 1] then some ['P', 'b', '?']
            else if l = [0, 1, 2] then some ['P', 'b', 'X']
            else some [])
          (fun _ => some 999))
        (fun i => if i = 0 then some 1 else some 2)
        (fun _ => true) (InferenceParams.mk (some 2)) ['p']).2).emitted.join ≠
      (['P', 'b', 'X'].drop (['P'].length)) := by
  decide

/-- C5 amended: the baseline is initialized to the decoded-prompt
length (so the prompt is never re-emitted), and — provided the
detokenizer is prefix-monotone, i.e. appending a token only extends the
decoded text — the concatenation of all emitted deltas equals exactly
the suffix of the full decode of the final running token sequence
beyond the initial prompt decode.  Without prefix-monotonicity the
equality can fail (see the counterexample). -/
theorem C5_amended (tk : Tok) (next : Nat → Option Nat)
    (emitOk : Nat → Bool) (params : InferenceParams) (prompt : List Char)
    (ids0 : List Nat) (initText : List Char)
    (hmono : ∀ (l : List Nat) (t : Nat) (c c' : List Char),
      tk.decode l = some c → tk.decode (l ++ [t]) = some c' →
      ∃ tail, c' = c ++ tail)
    (henc : tk.encode prompt = some ids0)
    (hdec : tk.decode ids0 = some initText)
    (hok : (runInference tk next emitOk params prompt).1 = RunResult.ok) :
    ∃ fin, tk.decode ((runInference tk next emitOk params prompt).2).ids =
        some fin ∧
      ((runInference tk next emitOk params prompt).2).emitted.join =
        fin.drop initText.length ∧
      initText.length ≤ fin.length := by
  have hrun : runInference tk next emitOk params prompt =
      genLoop tk.decode next (stopTokenIds tk) emitOk
        (params.maxTokens.getD 1024) 0 ⟨ids0, initText.length, [], 0⟩ := by
    simp [runInference, henc, hdec]
  rw [hrun] at hok ⊢
  exact genLoop_emitted_join tk.decode next (stopTokenIds tk) emitOk hmono
    (params.maxTokens.getD 1024) 0 ⟨ids0, initText.length, [], 0⟩ initText
    initText.length hdec rfl (by simp) (Nat.le_refl _) hok

/-- C5 amended witness: with the prefix-monotone detokenizer that maps
every token to one 'a', a 3-step run's deltas concatenate exactly to
the final decode beyond the prompt decode. -/
theorem C5_amended_witness :
    ∃ fin,
      (Tok.mk (fun _ => some [0])
        (fun l => some (List.replicate l.length 'a'))
        (fun _ => none)).decode
        ((runInference
          (Tok.mk (fun _ => some [0])
            (fun l => some (List.replicate l.length 'a'))
            (fun _ => none))
          (fun _ => some 5) (fun _ => true)
          (InferenceParams.mk (some 3)) ['p']).2).ids = some fin ∧
      ((runInference
          (Tok.mk (fun _ => some [0])
            (fun l => some (List.replicate l.length 'a'))
            (fun _ => none))
          (fun _ => some 5) (fun _ => true)
          (InferenceParams.mk (some 3)) ['p']).2).emitted.join =
        fin.drop (['a'].length) ∧
      (['a'].length ≤ fin.length) :=
  C5_amended
    (Tok.mk (fun _ => some [0])
      (fun l => some (List.replicate l.length 'a'))
      (fun _ => none))
    (fun _ => some 5) (fun _ => true) (InferenceParams.mk (some 3)) ['p']
    [0] ['a']
    (by
      intro l t c c' h1 h2
      simp only [Option.some.injEq] at h1 h2
      refine ⟨['a'], ?_⟩
      rw [← h1, ← h2]
      simp [List.replicate_succ'])
    rfl rfl (by decide)

/-!  Cancellation path of the streaming handler (C2).  -/

/-- C2 counterexample: a streamed run whose consumer disconnects before
the second delta.  The embedded `infer_stream` blocking task finishes
with result `panicked` — the callback's failed `blocking_send` is
realized as `panic!`, an abrupt unwind, not a normal cancellation
return — the loop stops at that iteration (2 steps, though
`max_tokens = 5`), and the per-instance mutex is left poisoned, so the
next request needs the forced `into_inner` recovery. -/
theorem C2_counterexample :
    (streamBlockingTask
        (Tok.mk (fun _ => some [0])
          (fun l => some (List.replicate l.length 'a'))
          (fun _ => some 999))
        (fun _ => some 1) (fun i => decide (i = 0))
        (InferenceParams.mk (some 5)) ['p'] false).result =
      RunResult.panicked ∧
    (streamBlockingTask
        (Tok.mk (fun _ => some [0])
          (fun l => some (List.replicate l.length 'a'))
          (fun _ => some 999))
        (fun _ => some 1) (fun i => decide (i = 0))
        (InferenceParams.mk (some 5)) ['p'] false).lockPoisonedAfter =
      true ∧
    (streamBlockingTask
        (Tok.mk (fun _ => some [0])
          (fun l => some (List.replicate l.length 'a'))
          (fun _ => some 999))
        (fun _ => some 1) (fun i => decide (i = 0))
        (InferenceParams.mk (some 5)) ['p'] false).state.steps = 2 := by
  decide

/-- C2 amended: when an emission fails because the consumer is gone,
the generation loop does terminate immediately within that iteration —
but by panicking (an abrupt unwind), which poisons the per-instance
lock; the streaming handler then relies on forced recovery
(`lock().unwrap_or_else(|e| e.into_inner())`), which acquires the
poisoned lock, for the next streaming request to proceed. -/
theorem C2_amended (d : List Nat → Option (List Char))
    (n : Nat → Option Nat) (stops : List Nat) (e : Nat → Bool)
    (fuel idx : Nat) (st : LoopState) (t : Nat) (c : List Char)
    (hn : n idx = some t) (hd : d (st.ids ++ [t]) = some c)
    (hlen : st.prevLen < c.length) (he : e st.emitted.length = false) :
    genLoop d n stops e (fuel + 1) idx st =
      (RunResult.panicked,
        ⟨st.ids ++ [t], c.length, st.emitted ++ [c.drop st.prevLen],
          st.steps + 1⟩) ∧
    (∀ poisoned : Bool, lockForced poisoned = AcquireResult.acquired) ∧
    (∀ (tk : Tok) (nx : Nat → Option Nat) (eo : Nat → Bool)
        (p : InferenceParams) (pr : List Char) (pb : Bool),
      (streamBlockingTask tk nx eo p pr pb).result = RunResult.panicked →
      (streamBlockingTask tk nx eo p pr pb).lockPoisonedAfter = true) := by
  refine ⟨?_, fun _ => rfl, ?_⟩
  · simp [genLoop, hn, hd, hlen, he]
  · intro tk nx eo p pr pb hres
    unfold streamBlockingTask at hres ⊢
    simp only [lockForced] at hres ⊢
    simp [hres]

/-- C2 amended witness: one concrete failing emission. -/
theorem C2_amended_witness :
    genLoop (fun l => some (List.replicate l.length 'a'))
        (fun _ => some 1) [2] (fun _ => false) 1 0
        ⟨[0], 1, [], 0⟩ =
      (RunResult.panicked, ⟨[0, 1], 2, [['a']], 1⟩) :=
  (C2_amended (fun l => some (List.replicate l.length 'a'))
    (fun _ => some 1) [2] (fun _ => false) 0 0 ⟨[0], 1, [], 0⟩ 1
    ['a', 'a'] rfl rfl (by decide) rfl).1

/-!  Admission concurrency (C9).  -/

theorem generatingCount_set (l : List Phase) :
    ∀ (i : Nat) (a b : Phase), l.get? i = some a →
      generatingCount (l.set i b) +
          (if a = Phase.generating then 1 else 0) =
        generatingCount l + (if b = Phase.generating then 1 else 0) := by
  induction l with
  | nil => intro i a b h; simp at h
  | cons p rest ih =>
    intro i a b h
    cases i with
    | zero =>
      have hp : p = a := by
        have h0 : some p = some a := h
        injection h0
      subst hp
      simp [List.set, generatingCount]
      omega
    | succ i =>
      have h' : rest.get? i = some a := h
      have := ih i a b h'
      simp [List.set, generatingCount]
      omega

theorem sysInv_initSys (nT : Nat) : sysInv (initSys nT) := by
  have h : generatingCount (List.replicate nT Phase.idle) = 0 := by
    induction nT with
    | zero => rfl
    | succ m ih => simpa [List.replicate, generatingCount] using ih
  simp [sysInv, initSys, h]

theorem sysInv_step (s s' : Sys) (hst : SysStep s s') (h : sysInv s) :
    sysInv s' := by
  cases hst with
  | submit i hi =>
    have hc := generatingCount_set s.tasks i Phase.idle Phase.waiting hi
    unfold sysInv at h ⊢
    simp at hc ⊢
    omega
  | acquire i hi hp =>
    have hc := generatingCount_set s.tasks i Phase.waiting Phase.generating hi
    unfold sysInv at h ⊢
    simp at hc ⊢
    omega
  | release i hi =>
    have hc := generatingCount_set s.tasks i Phase.generating Phase.done hi
    unfold sysInv at h ⊢
    simp at hc ⊢
    omega

/-- C9: in every state reachable under interleaved scheduling from the
startup state (semaphore of capacity 1, any number of request tasks),
at most one generation is running — every generation holds the single
admission permit for its full duration, so no two generation loops ever
run concurrently. -/
theorem C9_single_generation (nT : Nat) (s : Sys)
    (h : Reach (initSys nT) s) : generatingCount s.tasks ≤ 1 := by
  have hinv : sysInv s := by
    induction h with
    | refl => exact sysInv_initSys nT
    | step hr hstep ih => exact sysInv_step _ _ hstep ih
  unfold sysInv at hinv
  omega

/-- C9 witness: the startup state with three pending requests. -/
theorem C9_single_generation_witness :
    generatingCount (initSys 3).tasks ≤ 1 :=
  C9_single_generation 3 (initSys 3) Reach.refl

end LLMService
